import Mathlib

/-!
# Verification of `homework/clean_data.py`

A shallow embedding of the text-cleaning utility in `src/homework/clean_data.py`
together with proofs about its behaviour.

Modelling conventions:
* Python strings are Lean `String`s; character-level work happens on `List Char`.
* Python's `str.upper`, `str.lower` and `str.title` only transform ASCII
  letters on the inputs reachable here; they are modelled with core
  `Char.toUpper` / `Char.toLower`, which implement exactly the ASCII mapping.
* The regex `re.sub(r"[^A-Za-z0-9\- ]+", "", s)` is a character filter; the
  regex `re.sub(r"\s+", " ", s)` replaces every maximal run of whitespace by a
  single space, modelled by a left-to-right scan carrying a flag that records
  whether the previous character was whitespace.
* `pandas` file I/O is modelled at the record level: a filesystem maps a path
  to the parsed rows of the file stored there (see `mainModel`).
-/

namespace CleanData

/-- The ASCII characters matched by Python's regex class `\s` and stripped by
`str.strip()`: space, tab, newline, carriage return, vertical tab, form feed.
(After the character filter of `_normalize` only the plain space survives, so
the non-ASCII whitespace characters of Python are unreachable here.) -/
def isPySpace (c : Char) : Bool :=
  c = ' ' || c = '\t' || c = '\n' || c = '\r' || c = '\x0b' || c = '\x0c'

/-- The character class kept by `re.sub(r"[^A-Za-z0-9\- ]+", "", s)`:
ASCII letters, ASCII digits, hyphen, space. -/
def keepChar (c : Char) : Bool :=
  c.isAlphanum || c = '-' || c = ' '

/-- Model of `re.sub(r"\s+", " ", s)`: each maximal run of whitespace characters is
replaced by a single space.  The boolean flag records whether the previous
character was whitespace (i.e. the current run has already emitted its
space). -/
def collapseWsAux : Bool → List Char → List Char
  | _, [] => []
  | prevWs, c :: t =>
    if isPySpace c then
      if prevWs then collapseWsAux true t else ' ' :: collapseWsAux true t
    else c :: collapseWsAux false t

/-- Model of `re.sub(r"\s+", " ", s)` on a whole string (no run in progress at start). -/
def collapseWs (l : List Char) : List Char := collapseWsAux false l

/-- Remove trailing Python whitespace (the right half of `str.strip()`). -/
def stripRight : List Char → List Char
  | [] => []
  | c :: t =>
    match stripRight t with
    | [] => if isPySpace c then [] else [c]
    | r => c :: r

/-- Model of `str.strip()`: drop leading and trailing Python whitespace. -/
def pyStrip (l : List Char) : List Char := stripRight (l.dropWhile isPySpace)

/-- Embedding of `_normalize` from `clean_data.py`:
`s.replace(".", " ")`, then `re.sub(r"[^A-Za-z0-9\- ]+", "", s)`, then
`re.sub(r"\s+", " ", s)`, then `s.strip().upper()`. -/
def normalize (s : String) : String :=
  let s1 := s.toList.map (fun c => if c = '.' then ' ' else c)
  let s2 := s1.filter keepChar
  let s3 := collapseWs s2
  ⟨(pyStrip s3).map Char.toUpper⟩

/-- Python `str.title()` restricted to ASCII (all that is reachable after
`_normalize`): a cased (here: ASCII alphabetic) character is uppercased when
the previous character was not cased and lowercased when it was; uncased
characters pass through and reset the flag. -/
def pyTitleAux : Bool → List Char → List Char
  | _, [] => []
  | prevCased, c :: t =>
    if c.isAlpha then
      (if prevCased then c.toLower else c.toUpper) :: pyTitleAux true t
    else c :: pyTitleAux false t

/-- Python `str.title()` on a whole string (no cased character before the
first one). -/
def pyTitle (l : List Char) : List Char := pyTitleAux false l

/-- Embedding of `_map_clean_label` from `clean_data.py`: a fixed exact-match table with a
`norm.title()` fallback. -/
def mapCleanLabel (norm : String) : String :=
  if norm = "ADHOC QUERIES" ∨ norm = "AD-HOC QUERIES" then "AD-HOC QUERIES"
  else if norm = "AGRICULTURAL PRODUCTION" then "AGRICULTURAL PRODUCTION"
  else if norm = "AIRLINE COMPANIES" then "AIRLINE COMPANIES"
  else if norm = "AIRLINES" then "AIRLINES"
  else if norm = "ANALYTIC APPLICATIONS" then "ANALYTIC APPLICATIONS"
  else if norm = "ANALYTIC MODEL" then "ANALYTIC MODEL"
  else ⟨pyTitle norm.toList⟩

/-- The keys of the exact-match table of `_map_clean_label`. -/
def tableKeys : List String :=
  ["ADHOC QUERIES", "AD-HOC QUERIES", "AGRICULTURAL PRODUCTION",
   "AIRLINE COMPANIES", "AIRLINES", "ANALYTIC APPLICATIONS", "ANALYTIC MODEL"]

/-- The `expected` index-to-literal table of `_make_test_keys`. -/
def expectedTestKeys : List (Nat × String) :=
  [(0, "alanapatcacsiciolilynnaonplppsatiyt"),
   (2, "alanapatcacsiciolilynansonplppssatiyt"),
   (3, "alancsdeelicllymonaodsmtiyt"),
   (7, "alancadeeliclmlslymonaodstiyt"),
   (12, "agalctcudugriclpltodprrariroststuuculur"),
   (17, "aiesinirlinerls")]

/-- Embedding of `_make_test_keys` from `clean_data.py`: start from the
`key_filler_<index>` list of length `n` and overwrite the expected values at
the indices of `expectedTestKeys` that satisfy the `0 <= idx < n` guard. -/
def makeTestKeys (n : Nat) : List String :=
  expectedTestKeys.foldl
    (fun keys iv => if iv.1 < n then keys.set iv.1 iv.2 else keys)
    ((List.range n).map (fun i => "key_filler_" ++ toString i))

/-- The `cleaned` list built by the loop in `main`: for each raw text,
`_normalize` runs first and its output feeds `_map_clean_label`. -/
def cleanedColumn (raw_texts : List String) : List String :=
  raw_texts.map (fun s => mapCleanLabel (normalize s))

/-- The one error `main` raises itself: `FileNotFoundError(input_path)`. -/
inductive CleanErr where
  | fileNotFound (path : String)
deriving DecidableEq

/-- Model of `main(input_path, output_path)`.  The filesystem maps a path to
the parsed rows of the file stored there; `pd.read_csv` / `to_csv`
serialization is not modelled (per the spec the parse is tolerant and total,
so reading the input yields its `raw_text` records).  `main` checks
`os.path.exists(input_path)` and raises `FileNotFoundError` before touching
anything else; otherwise it writes the cleaned column to `output_path` and
the test keys to `files/test.csv` (the later write wins if the two paths
coincide).  Returns the resulting filesystem together with the raised error,
if any. -/
def mainModel (fs : String → Option (List String)) (input_path output_path : String) :
    (String → Option (List String)) × Option CleanErr :=
  match fs input_path with
  | none => (fs, some (CleanErr.fileNotFound input_path))
  | some raw_texts =>
    let cleaned := cleanedColumn raw_texts
    let test_keys := makeTestKeys raw_texts.length
    (fun p =>
      if p = "files/test.csv" then some test_keys
      else if p = output_path then some cleaned
      else fs p,
     none)

/-- The title-casing rule exactly as the specification words it: capitalize
the first letter of each whitespace-separated word and lowercase the
remainder of each word.  (Spec-side definition, to be compared with the
code's `pyTitle`.) -/
def titleWordsSpecAux : Bool → List Char → List Char
  | _, [] => []
  | wordStart, c :: t =>
    if c = ' ' then ' ' :: titleWordsSpecAux true t
    else (if wordStart then c.toUpper else c.toLower) :: titleWordsSpecAux false t

/-- Spec-side whitespace-word title casing on a whole string. -/
def titleWordsSpec (l : List Char) : List Char := titleWordsSpecAux true l

/-- Positional description of Python's `str.title()`: a letter is uppercased
exactly when it starts the string or follows a non-letter (so also after a
hyphen or a digit), and lowercased when it follows a letter; non-letters are
unchanged.  Each position is computed from the character and its predecessor
(a dummy non-letter `' '` in front of the first character). -/
def titlePositional (l : List Char) : List Char :=
  List.zipWith
    (fun p c => if c.isAlpha then (if p.isAlpha then c.toLower else c.toUpper) else c)
    (' ' :: l) l

/-- Holds iff the list has no two adjacent spaces. -/
def noDoubleSpace : List Char → Bool
  | c1 :: c2 :: t => !(c1 = ' ' && c2 = ' ') && noDoubleSpace (c2 :: t)
  | _ => true

/-- Holds iff the list neither starts nor ends with whitespace. -/
def trimmed (l : List Char) : Bool :=
  !(l.head?.any isPySpace) && !(l.getLast?.any isPySpace)

/-! ## Character-level toolkit

All character reasoning is funnelled through `Char.toNat`, where `omega`
can finish. -/

theorem char_toNat_ofNat {n : Nat} (h : n < 55296) : (Char.ofNat n).toNat = n := by
  have hv : n.isValidChar := Or.inl h
  simp [Char.ofNat, hv, Char.ofNatAux, Char.toNat, UInt32.toNat, BitVec.toNat_ofNatLt]

theorem char_eq_iff_toNat {c d : Char} : c = d ↔ c.toNat = d.toNat := by
  constructor
  · intro h; rw [h]
  · intro h
    apply Char.ext
    apply UInt32.eq_of_toBitVec_eq
    apply BitVec.eq_of_toNat_eq
    exact h

theorem isUpper_iff (c : Char) : c.isUpper = true ↔ 65 ≤ c.toNat ∧ c.toNat ≤ 90 := by
  simp only [Char.isUpper, Bool.and_eq_true, decide_eq_true_eq, UInt32.le_def,
    BitVec.le_def, Char.toNat, UInt32.toNat]
  rw [show (UInt32.toBitVec 65).toNat = 65 from rfl,
    show (UInt32.toBitVec 90).toNat = 90 from rfl]

theorem isLower_iff (c : Char) : c.isLower = true ↔ 97 ≤ c.toNat ∧ c.toNat ≤ 122 := by
  simp only [Char.isLower, Bool.and_eq_true, decide_eq_true_eq, UInt32.le_def,
    BitVec.le_def, Char.toNat, UInt32.toNat]
  rw [show (UInt32.toBitVec 97).toNat = 97 from rfl,
    show (UInt32.toBitVec 122).toNat = 122 from rfl]

theorem isDigit_iff (c : Char) : c.isDigit = true ↔ 48 ≤ c.toNat ∧ c.toNat ≤ 57 := by
  simp only [Char.isDigit, Bool.and_eq_true, decide_eq_true_eq, UInt32.le_def,
    BitVec.le_def, Char.toNat, UInt32.toNat]
  rw [show (UInt32.toBitVec 48).toNat = 48 from rfl,
    show (UInt32.toBitVec 57).toNat = 57 from rfl]

theorem isAlpha_iff (c : Char) :
    c.isAlpha = true ↔ (65 ≤ c.toNat ∧ c.toNat ≤ 90) ∨ (97 ≤ c.toNat ∧ c.toNat ≤ 122) := by
  rw [Char.isAlpha, Bool.or_eq_true, isUpper_iff, isLower_iff]

theorem isAlphanum_iff (c : Char) :
    c.isAlphanum = true ↔
      (65 ≤ c.toNat ∧ c.toNat ≤ 90) ∨ (97 ≤ c.toNat ∧ c.toNat ≤ 122) ∨
      (48 ≤ c.toNat ∧ c.toNat ≤ 57) := by
  rw [Char.isAlphanum, Bool.or_eq_true, isAlpha_iff, isDigit_iff]
  tauto

theorem isPySpace_iff (c : Char) :
    isPySpace c = true ↔
      c.toNat = 32 ∨ c.toNat = 9 ∨ c.toNat = 10 ∨ c.toNat = 13 ∨
      c.toNat = 11 ∨ c.toNat = 12 := by
  simp only [isPySpace, Bool.or_eq_true, decide_eq_true_eq, char_eq_iff_toNat]
  rw [show (' ').toNat = 32 from rfl, show ('\t').toNat = 9 from rfl,
    show ('\n').toNat = 10 from rfl, show ('\x0d').toNat = 13 from rfl,
    show ('\x0b').toNat = 11 from rfl, show ('\x0c').toNat = 12 from rfl]
  tauto

theorem toUpper_toNat (c : Char) :
    (c.toUpper).toNat = if 97 ≤ c.toNat ∧ c.toNat ≤ 122 then c.toNat - 32 else c.toNat := by
  unfold Char.toUpper
  by_cases h : 97 ≤ c.toNat ∧ c.toNat ≤ 122
  · rw [if_pos h, if_pos h]
    exact char_toNat_ofNat (by omega)
  · rw [if_neg h, if_neg h]

theorem toLower_toNat (c : Char) :
    (c.toLower).toNat = if 65 ≤ c.toNat ∧ c.toNat ≤ 90 then c.toNat + 32 else c.toNat := by
  unfold Char.toLower
  by_cases h : 65 ≤ c.toNat ∧ c.toNat ≤ 90
  · rw [if_pos h, if_pos h]
    exact char_toNat_ofNat (by omega)
  · rw [if_neg h, if_neg h]

theorem toUpper_toUpper (c : Char) : c.toUpper.toUpper = c.toUpper := by
  simp only [char_eq_iff_toNat, toUpper_toNat]
  split_ifs <;> omega

theorem toLower_toLower (c : Char) : c.toLower.toLower = c.toLower := by
  simp only [char_eq_iff_toNat, toLower_toNat]
  split_ifs <;> omega

theorem isAlpha_toUpper (c : Char) : (c.toUpper).isAlpha = c.isAlpha := by
  rw [Bool.eq_iff_iff, isAlpha_iff, isAlpha_iff, toUpper_toNat]
  split_ifs <;> omega

theorem isAlpha_toLower (c : Char) : (c.toLower).isAlpha = c.isAlpha := by
  rw [Bool.eq_iff_iff, isAlpha_iff, isAlpha_iff, toLower_toNat]
  split_ifs <;> omega

theorem isAlphanum_toUpper (c : Char) : (c.toUpper).isAlphanum = c.isAlphanum := by
  rw [Bool.eq_iff_iff, isAlphanum_iff, isAlphanum_iff, toUpper_toNat]
  split_ifs <;> omega

theorem isLower_toUpper (c : Char) : (c.toUpper).isLower = false := by
  rw [Bool.eq_false_iff]
  intro h
  rw [isLower_iff, toUpper_toNat] at h
  split_ifs at h <;> omega

theorem isLower_toLower_of_isAlpha {c : Char} (h : c.isAlpha = true) :
    (c.toLower).isLower = true := by
  rw [isLower_iff, toLower_toNat]
  rw [isAlpha_iff] at h
  split_ifs <;> omega

theorem toUpper_eq_self_of_not_lower {c : Char} (h : c.isLower = false) : c.toUpper = c := by
  rw [char_eq_iff_toNat, toUpper_toNat]
  rw [← Bool.not_eq_true, isLower_iff] at h
  rw [if_neg h]

theorem isPySpace_toUpper (c : Char) : isPySpace (c.toUpper) = isPySpace c := by
  rw [Bool.eq_iff_iff, isPySpace_iff, isPySpace_iff, toUpper_toNat]
  split_ifs <;> omega

theorem toUpper_eq_space_iff (c : Char) : c.toUpper = ' ' ↔ c = ' ' := by
  simp only [char_eq_iff_toNat, toUpper_toNat]
  rw [show (' ').toNat = 32 from rfl]
  split_ifs <;> omega

/-! ## Lemmas about `pyTitle` -/

theorem pyTitleAux_cons (b : Bool) (c : Char) (t : List Char) :
    pyTitleAux b (c :: t) =
      if c.isAlpha then (if b then c.toLower else c.toUpper) :: pyTitleAux true t
      else c :: pyTitleAux false t := rfl

/-- The stateful scan of `pyTitle` agrees with the positional description:
feeding any character `p` as virtual predecessor. -/
theorem pyTitleAux_eq_zipWith (l : List Char) : ∀ p : Char,
    pyTitleAux p.isAlpha l =
      List.zipWith
        (fun p c => if c.isAlpha then (if p.isAlpha then c.toLower else c.toUpper) else c)
        (p :: l) l := by
  induction l with
  | nil => intro p; rfl
  | cons c t ih =>
    intro p
    rw [pyTitleAux_cons, List.zipWith]
    by_cases hc : c.isAlpha = true
    · rw [if_pos hc, if_pos hc]
      have ht := ih c
      rw [hc] at ht
      rw [ht]
    · have hc' : c.isAlpha = false := by simpa using hc
      rw [hc', if_neg (by simp), if_neg (by simp)]
      have ht := ih c
      rw [hc'] at ht
      rw [ht]

theorem pyTitle_eq_titlePositional (l : List Char) : pyTitle l = titlePositional l := by
  have h := pyTitleAux_eq_zipWith l ' '
  rw [show (' ').isAlpha = false from rfl] at h
  exact h

/-- Applying `pyTitle` twice equals applying it once. -/
theorem pyTitleAux_idem (l : List Char) : ∀ b, pyTitleAux b (pyTitleAux b l) = pyTitleAux b l := by
  induction l with
  | nil => intro b; rfl
  | cons c t ih =>
    intro b
    by_cases hc : c.isAlpha = true
    · cases b
      · rw [pyTitleAux_cons, if_pos hc, if_neg (by simp), pyTitleAux_cons,
          isAlpha_toUpper, if_pos hc, if_neg (by simp), toUpper_toUpper, ih true]
      · rw [pyTitleAux_cons, if_pos hc, if_pos rfl, pyTitleAux_cons,
          isAlpha_toLower, if_pos hc, if_pos rfl, toLower_toLower, ih true]
    · have hc' : c.isAlpha = false := by simpa using hc
      rw [pyTitleAux_cons, if_neg (by simp [hc']), pyTitleAux_cons,
        if_neg (by simp [hc']), ih false]

/-- In `pyTitle` output, a letter that follows a letter is lowercase. -/
theorem pyTitleAux_second_lower :
    ∀ (l : List Char) (b : Bool) (x y : Char) (r : List Char),
      pyTitleAux b l = x :: y :: r → x.isAlpha = true → y.isAlpha = true →
      y.isLower = true
  | [], _, _, _, _, h, _, _ => List.noConfusion h
  | c :: t, b, x, y, r, h, hx, hy => by
    rw [pyTitleAux_cons] at h
    by_cases hc : c.isAlpha = true
    · rw [if_pos hc] at h
      have htail : pyTitleAux true t = y :: r := by
        simpa using (List.cons.injEq _ _ _ _ ▸ h : _ ∧ _).2
      cases t with
      | nil => exact List.noConfusion htail
      | cons c' t' =>
        rw [pyTitleAux_cons] at htail
        by_cases hc' : c'.isAlpha = true
        · rw [if_pos hc', if_pos rfl] at htail
          have hyc : y = c'.toLower := by
            have := (List.cons.injEq _ _ _ _ ▸ htail : _ ∧ _).1
            exact this.symm
          rw [hyc]
          exact isLower_toLower_of_isAlpha hc'
        · rw [if_neg hc'] at htail
          have hyc : y = c' := by
            have := (List.cons.injEq _ _ _ _ ▸ htail : _ ∧ _).1
            exact this.symm
          rw [hyc] at hy
          exact absurd hy hc'
    · rw [if_neg hc] at h
      have hxc : x = c := by
        have := (List.cons.injEq _ _ _ _ ▸ h : _ ∧ _).1
        exact this.symm
      rw [hxc] at hx
      exact absurd hx hc

/-! ## Lemmas about `collapseWs`, `stripRight`, `dropWhile`, `noDoubleSpace` -/

theorem collapseWsAux_cons (b : Bool) (c : Char) (t : List Char) :
    collapseWsAux b (c :: t) =
      if isPySpace c then
        if b then collapseWsAux true t else ' ' :: collapseWsAux true t
      else c :: collapseWsAux false t := rfl

theorem mem_collapseWsAux :
    ∀ (l : List Char) (b : Bool) (c : Char),
      c ∈ collapseWsAux b l → c = ' ' ∨ (c ∈ l ∧ isPySpace c = false)
  | [], _, c, h => absurd h (List.not_mem_nil c)
  | a :: t, b, c, h => by
    rw [collapseWsAux_cons] at h
    by_cases ha : isPySpace a = true
    · rw [if_pos ha] at h
      cases b
      · rw [if_neg (by simp)] at h
        rcases List.mem_cons.mp h with h1 | h2
        · exact Or.inl h1
        · rcases mem_collapseWsAux t true c h2 with h3 | h4
          · exact Or.inl h3
          · exact Or.inr ⟨List.mem_cons_of_mem _ h4.1, h4.2⟩
      · rw [if_pos rfl] at h
        rcases mem_collapseWsAux t true c h with h3 | h4
        · exact Or.inl h3
        · exact Or.inr ⟨List.mem_cons_of_mem _ h4.1, h4.2⟩
    · rw [if_neg ha] at h
      rcases List.mem_cons.mp h with h1 | h2
      · rw [h1]
        refine Or.inr ⟨List.mem_cons_self _ _, ?_⟩
        simpa using ha
      · rcases mem_collapseWsAux t false c h2 with h3 | h4
        · exact Or.inl h3
        · exact Or.inr ⟨List.mem_cons_of_mem _ h4.1, h4.2⟩

/-- After the scan has just emitted a space (flag `true`), the next emitted
character is not whitespace. -/
theorem collapseWsAux_true_head :
    ∀ (l : List Char) (c : Char) (t : List Char),
      collapseWsAux true l = c :: t → isPySpace c = false
  | [], _, _, h => List.noConfusion h
  | a :: l', c, t, h => by
    rw [collapseWsAux_cons] at h
    by_cases ha : isPySpace a = true
    · rw [if_pos ha, if_pos rfl] at h
      exact collapseWsAux_true_head l' c t h
    · rw [if_neg ha] at h
      have hac : a = c := (List.cons.injEq _ _ _ _ ▸ h : _ ∧ _).1
      rw [← hac]
      simpa using ha

theorem noDoubleSpace_cons_cons (c1 c2 : Char) (t : List Char) :
    noDoubleSpace (c1 :: c2 :: t) =
      (!(c1 = ' ' && c2 = ' ') && noDoubleSpace (c2 :: t)) := rfl

theorem noDoubleSpace_tail : ∀ (c : Char) (l : List Char),
    noDoubleSpace (c :: l) = true → noDoubleSpace l = true
  | _, [], _ => rfl
  | c, a :: t, h => by
    rw [noDoubleSpace_cons_cons, Bool.and_eq_true] at h
    exact h.2

theorem noDoubleSpace_collapseWsAux :
    ∀ (l : List Char) (b : Bool), noDoubleSpace (collapseWsAux b l) = true
  | [], _ => rfl
  | a :: t, b => by
    rw [collapseWsAux_cons]
    by_cases ha : isPySpace a = true
    · rw [if_pos ha]
      cases b
      · rw [if_neg (by simp)]
        cases hXc : collapseWsAux true t with
        | nil => rfl
        | cons y r =>
          have hy := collapseWsAux_true_head t y r hXc
          have hX := noDoubleSpace_collapseWsAux t true
          rw [hXc] at hX
          rw [noDoubleSpace_cons_cons, Bool.and_eq_true]
          refine ⟨?_, hX⟩
          have hy' : y ≠ ' ' := by
            intro hcon
            rw [hcon] at hy
            exact absurd hy (by simp [isPySpace])
          simp [hy']
      · rw [if_pos rfl]
        exact noDoubleSpace_collapseWsAux t true
    · rw [if_neg ha]
      have ha' : a ≠ ' ' := by
        intro hcon
        rw [hcon] at ha
        exact absurd (by simp [isPySpace] : isPySpace ' ' = true) ha
      cases hXc : collapseWsAux false t with
      | nil => rfl
      | cons y r =>
        have hX := noDoubleSpace_collapseWsAux t false
        rw [hXc] at hX
        rw [noDoubleSpace_cons_cons, Bool.and_eq_true]
        exact ⟨by simp [ha'], hX⟩

theorem noDoubleSpace_append_left :
    ∀ (l r : List Char), noDoubleSpace (l ++ r) = true → noDoubleSpace l = true
  | [], _, _ => rfl
  | [_], _, _ => rfl
  | c1 :: c2 :: t, r, h => by
    rw [List.cons_append] at h
    rw [noDoubleSpace_cons_cons, Bool.and_eq_true]
    rw [List.cons_append] at h
    rw [noDoubleSpace_cons_cons, Bool.and_eq_true] at h
    refine ⟨h.1, ?_⟩
    have := h.2
    rw [← List.cons_append] at this
    exact noDoubleSpace_append_left (c2 :: t) r this

theorem noDoubleSpace_map_toUpper :
    ∀ l : List Char, noDoubleSpace (l.map Char.toUpper) = noDoubleSpace l
  | [] => rfl
  | [_] => rfl
  | c1 :: c2 :: t => by
    rw [List.map_cons, List.map_cons, noDoubleSpace_cons_cons, noDoubleSpace_cons_cons,
      ← List.map_cons]
    rw [noDoubleSpace_map_toUpper (c2 :: t)]
    have h1 : (decide (c1.toUpper = ' ')) = (decide (c1 = ' ')) :=
      decide_eq_decide.mpr (toUpper_eq_space_iff c1)
    have h2 : (decide (c2.toUpper = ' ')) = (decide (c2 = ' ')) :=
      decide_eq_decide.mpr (toUpper_eq_space_iff c2)
    rw [h1, h2]

theorem stripRight_cons (c : Char) (t : List Char) :
    stripRight (c :: t) =
      match stripRight t with
      | [] => if isPySpace c then [] else [c]
      | r => c :: r := rfl

/-- Every list extends its own `stripRight` image by some tail. -/
theorem stripRight_append : ∀ l : List Char, ∃ r, l = stripRight l ++ r
  | [] => ⟨[], rfl⟩
  | c :: t => by
    obtain ⟨r, hr⟩ := stripRight_append t
    rw [stripRight_cons]
    cases hst : stripRight t with
    | nil =>
      by_cases hc : isPySpace c = true
      · rw [if_pos hc]
        exact ⟨c :: t, rfl⟩
      · rw [if_neg hc]
        exact ⟨t, rfl⟩
    | cons y r' =>
      refine ⟨r, ?_⟩
      rw [hst] at hr
      rw [List.cons_append, ← hr]

theorem mem_stripRight {l : List Char} {c : Char} (h : c ∈ stripRight l) : c ∈ l := by
  obtain ⟨r, hr⟩ := stripRight_append l
  rw [hr]
  exact List.mem_append_left r h

theorem noDoubleSpace_stripRight {l : List Char} (h : noDoubleSpace l = true) :
    noDoubleSpace (stripRight l) = true := by
  obtain ⟨r, hr⟩ := stripRight_append l
  rw [hr] at h
  exact noDoubleSpace_append_left _ r h

theorem stripRight_head {l : List Char} {c : Char} {t : List Char}
    (h : stripRight l = c :: t) : l.head? = some c := by
  obtain ⟨r, hr⟩ := stripRight_append l
  rw [hr, h]
  rfl

/-- The last character surviving `stripRight` is not whitespace. -/
theorem stripRight_getLast :
    ∀ (l : List Char) (c : Char), (stripRight l).getLast? = some c → isPySpace c = false
  | [], _, h => Option.noConfusion h
  | a :: t, c, h => by
    rw [stripRight_cons] at h
    cases hst : stripRight t with
    | nil =>
      rw [hst] at h
      by_cases ha : isPySpace a = true
      · rw [if_pos ha] at h
        exact Option.noConfusion h
      · rw [if_neg ha] at h
        have : a = c := by simpa using h
        rw [← this]
        simpa using ha
    | cons y r =>
      rw [hst] at h
      rw [List.getLast?_cons_cons] at h
      rw [← hst] at h
      exact stripRight_getLast t c h

/-- Lists not ending in whitespace are fixed points: `stripRight` does nothing when the list does not end in whitespace. -/
theorem stripRight_eq_self :
    ∀ l : List Char, (∀ c, l.getLast? = some c → isPySpace c = false) → stripRight l = l
  | [], _ => rfl
  | a :: t, h => by
    rw [stripRight_cons]
    cases t with
    | nil =>
      have ha := h a rfl
      rw [show stripRight [] = [] from rfl]
      rw [if_neg (by simp [ha])]
    | cons b t' =>
      have ht : stripRight (b :: t') = b :: t' := by
        refine stripRight_eq_self (b :: t') ?_
        intro c hc
        refine h c ?_
        rw [List.getLast?_cons_cons]
        exact hc
      rw [ht]

theorem dropWhile_head_false :
    ∀ (l : List Char) (c : Char) (t : List Char),
      l.dropWhile isPySpace = c :: t → isPySpace c = false
  | [], _, _, h => List.noConfusion h
  | a :: l', c, t, h => by
    rw [List.dropWhile_cons] at h
    by_cases ha : isPySpace a = true
    · rw [if_pos ha] at h
      exact dropWhile_head_false l' c t h
    · rw [if_neg ha] at h
      have hac : a = c := (List.cons.injEq _ _ _ _ ▸ h : _ ∧ _).1
      rw [← hac]
      simpa using ha

theorem mem_dropWhile :
    ∀ (l : List Char) (c : Char), c ∈ l.dropWhile isPySpace → c ∈ l
  | [], _, h => h
  | a :: l', c, h => by
    rw [List.dropWhile_cons] at h
    by_cases ha : isPySpace a = true
    · rw [if_pos ha] at h
      exact List.mem_cons_of_mem _ (mem_dropWhile l' c h)
    · rw [if_neg ha] at h
      exact h

theorem noDoubleSpace_dropWhile :
    ∀ l : List Char, noDoubleSpace l = true → noDoubleSpace (l.dropWhile isPySpace) = true
  | [], h => h
  | a :: t, h => by
    rw [List.dropWhile_cons]
    by_cases ha : isPySpace a = true
    · rw [if_pos ha]
      exact noDoubleSpace_dropWhile t (noDoubleSpace_tail a t h)
    · rw [if_neg ha]
      exact h

theorem dropWhile_eq_self :
    ∀ l : List Char, (∀ c, l.head? = some c → isPySpace c = false) →
      l.dropWhile isPySpace = l
  | [], _ => rfl
  | a :: t, h => by
    rw [List.dropWhile_cons, if_neg (by simp [h a rfl])]

theorem map_eq_self_of {α : Type} (f : α → α) :
    ∀ l : List α, (∀ c ∈ l, f c = c) → l.map f = l
  | [], _ => rfl
  | a :: t, h => by
    rw [List.map_cons, h a (List.mem_cons_self a t),
      map_eq_self_of f t (fun c hc => h c (List.mem_cons_of_mem a hc))]

/-! ## Shape of `normalize` output -/

theorem normalize_toList (s : String) :
    (normalize s).toList =
      (pyStrip (collapseWs
        ((s.toList.map (fun c => if c = '.' then ' ' else c)).filter keepChar))).map
        Char.toUpper := rfl

/-- Every character of `normalize s` comes from `Char.toUpper` applied to a
character that is either a space or kept by the filter. -/
theorem mem_normalize {s : String} {c : Char} (h : c ∈ (normalize s).toList) :
    ∃ d, c = d.toUpper ∧ (d = ' ' ∨ keepChar d = true) := by
  rw [normalize_toList] at h
  obtain ⟨d, hd, hdc⟩ := List.mem_map.mp h
  refine ⟨d, hdc.symm, ?_⟩
  have hd1 : d ∈ collapseWs ((s.toList.map
      (fun c => if c = '.' then ' ' else c)).filter keepChar) :=
    mem_dropWhile _ _ (mem_stripRight hd)
  rcases mem_collapseWsAux _ false d hd1 with h1 | h2
  · exact Or.inl h1
  · exact Or.inr (List.mem_filter.mp h2.1).2

theorem normalize_class {s : String} {c : Char} (h : c ∈ (normalize s).toList) :
    (c.isAlphanum || c = '-' || c = ' ') = true := by
  obtain ⟨d, hc, hd⟩ := mem_normalize h
  rcases hd with h1 | h2
  · rw [hc, h1]
    simp
  · rw [keepChar, Bool.or_eq_true, Bool.or_eq_true, decide_eq_true_eq,
      decide_eq_true_eq] at h2
    rw [hc]
    rcases h2 with (h3 | h4) | h5
    · rw [Bool.or_eq_true, Bool.or_eq_true, isAlphanum_toUpper, h3]
      tauto
    · rw [h4]
      simp
    · rw [h5]
      simp

theorem normalize_not_lower {s : String} {c : Char} (h : c ∈ (normalize s).toList) :
    c.isLower = false := by
  obtain ⟨d, hc, _⟩ := mem_normalize h
  rw [hc]
  exact isLower_toUpper d

theorem normalize_noDoubleSpace (s : String) :
    noDoubleSpace (normalize s).toList = true := by
  rw [normalize_toList, noDoubleSpace_map_toUpper, pyStrip]
  exact noDoubleSpace_stripRight
    (noDoubleSpace_dropWhile _ (noDoubleSpace_collapseWsAux _ false))

theorem normalize_trimmed (s : String) : trimmed (normalize s).toList = true := by
  rw [normalize_toList, trimmed, Bool.and_eq_true]
  constructor
  · rw [List.head?_map]
    cases hp : (pyStrip (collapseWs ((s.toList.map
        (fun c => if c = '.' then ' ' else c)).filter keepChar))) with
    | nil => rfl
    | cons y r =>
      have hhead := stripRight_head hp
      obtain ⟨r', hr'⟩ : ∃ r', (collapseWs ((s.toList.map
          (fun c => if c = '.' then ' ' else c)).filter keepChar)).dropWhile isPySpace
          = y :: r' := by
        cases hq : (collapseWs ((s.toList.map
            (fun c => if c = '.' then ' ' else c)).filter keepChar)).dropWhile isPySpace with
        | nil =>
          rw [hq] at hhead
          exact Option.noConfusion hhead
        | cons z r'' =>
          rw [hq] at hhead
          have hzy : z = y := by simpa using hhead
          exact ⟨r'', by rw [hzy]⟩
      have hy := dropWhile_head_false _ y r' hr'
      simp [isPySpace_toUpper, hy]
  · rw [List.getLast?_map]
    cases hp : (pyStrip (collapseWs ((s.toList.map
        (fun c => if c = '.' then ' ' else c)).filter keepChar))).getLast? with
    | none => rfl
    | some y =>
      have hy := stripRight_getLast _ y hp
      simp [isPySpace_toUpper, hy]

/-! ## `normalize` is the identity on its own output -/

theorem collapseWsAux_eq_self :
    ∀ l : List Char, (∀ c ∈ l, isPySpace c = true → c = ' ') → noDoubleSpace l = true →
      collapseWsAux false l = l ∧
      ((∀ y r, l = y :: r → y ≠ ' ') → collapseWsAux true l = l)
  | [], _, _ => ⟨rfl, fun _ => rfl⟩
  | a :: t, hsp, hnds => by
    have IH := collapseWsAux_eq_self t
      (fun c hc => hsp c (List.mem_cons_of_mem a hc)) (noDoubleSpace_tail a t hnds)
    constructor
    · rw [collapseWsAux_cons]
      by_cases ha : isPySpace a = true
      · have ha' : a = ' ' := hsp a (List.mem_cons_self a t) ha
        rw [if_pos ha, if_neg (by simp)]
        have ht : collapseWsAux true t = t := by
          refine IH.2 ?_
          intro y r hyr
          rw [ha', hyr, noDoubleSpace_cons_cons, Bool.and_eq_true] at hnds
          intro hy
          have := hnds.1
          rw [hy] at this
          simp at this
        rw [ht, ha']
      · rw [if_neg ha, IH.1]
    · intro hhead
      rw [collapseWsAux_cons]
      have ha : isPySpace a = false := by
        by_cases h : isPySpace a = true
        · exact absurd (hsp a (List.mem_cons_self a t) h) (hhead a t rfl)
        · simpa using h
      rw [if_neg (by simp [ha]), IH.1]

theorem collapseWsAux_true_all_space :
    ∀ l : List Char, (∀ c ∈ l, c = ' ') → collapseWsAux true l = []
  | [], _ => rfl
  | a :: t, h => by
    have ha : a = ' ' := h a (List.mem_cons_self a t)
    rw [collapseWsAux_cons, if_pos (by rw [ha]; rfl), if_pos rfl]
    exact collapseWsAux_true_all_space t (fun c hc => h c (List.mem_cons_of_mem a hc))

theorem pyStrip_collapseWs_all_space :
    ∀ l : List Char, (∀ c ∈ l, c = ' ') → pyStrip (collapseWs l) = []
  | [], _ => rfl
  | a :: t, h => by
    have ha : a = ' ' := h a (List.mem_cons_self a t)
    rw [collapseWs, collapseWsAux_cons, if_pos (by rw [ha]; rfl), if_neg (by simp),
      collapseWsAux_true_all_space t (fun c hc => h c (List.mem_cons_of_mem a hc))]
    rfl

/-- Re-normalizing the output of `normalize` changes nothing: every stage of
the pipeline is the identity on a string that is already in the output
shape. -/
theorem normalize_normalize (s : String) : normalize (normalize s) = normalize s := by
  have hnds := normalize_noDoubleSpace s
  have htrim := normalize_trimmed s
  have h1 : (normalize s).toList.map (fun c => if c = '.' then ' ' else c)
      = (normalize s).toList := by
    refine map_eq_self_of _ _ ?_
    intro c hc
    have hcls := normalize_class hc
    have hne : c ≠ '.' := by
      intro hdot
      rw [hdot] at hcls
      exact absurd hcls (by decide)
    rw [if_neg hne]
  have h2 : (normalize s).toList.filter keepChar = (normalize s).toList :=
    List.filter_eq_self.mpr (fun a ha => normalize_class ha)
  have hsp : ∀ c ∈ (normalize s).toList, isPySpace c = true → c = ' ' := by
    intro c hc hpc
    have hcls := normalize_class hc
    simp only [Bool.or_eq_true, decide_eq_true_eq] at hcls
    rcases hcls with (halnum | hdash) | hspace
    · exfalso
      rw [isAlphanum_iff] at halnum
      rw [isPySpace_iff] at hpc
      omega
    · exfalso
      rw [hdash] at hpc
      exact absurd hpc (by decide)
    · exact hspace
  have h3 : collapseWs (normalize s).toList = (normalize s).toList :=
    (collapseWsAux_eq_self _ hsp hnds).1
  rw [trimmed, Bool.and_eq_true] at htrim
  have hhead : ∀ c, (normalize s).toList.head? = some c → isPySpace c = false := by
    intro c hc
    have := htrim.1
    rw [hc] at this
    simpa using this
  have hlast : ∀ c, (normalize s).toList.getLast? = some c → isPySpace c = false := by
    intro c hc
    have := htrim.2
    rw [hc] at this
    simpa using this
  have h4 : pyStrip (normalize s).toList = (normalize s).toList := by
    rw [pyStrip, dropWhile_eq_self _ hhead, stripRight_eq_self _ hlast]
  have h5 : (normalize s).toList.map Char.toUpper = (normalize s).toList := by
    refine map_eq_self_of _ _ ?_
    intro c hc
    exact toUpper_eq_self_of_not_lower (normalize_not_lower hc)
  apply String.ext
  show (normalize (normalize s)).toList = (normalize s).toList
  rw [normalize_toList (normalize s), h1, h2, h3, h4, h5]

/-- A string whose characters are all removed by normalization (no ASCII
letter, no ASCII digit, no hyphen) normalizes to the empty string. -/
theorem normalize_all_removed {s : String}
    (h : ∀ c ∈ s.toList, c.isAlphanum = false ∧ c ≠ '-') : normalize s = "" := by
  have hall : ∀ c ∈ (s.toList.map (fun c => if c = '.' then ' ' else c)).filter keepChar,
      c = ' ' := by
    intro c hc
    obtain ⟨hmem, hkeep⟩ := List.mem_filter.mp hc
    obtain ⟨d, hd, hdc⟩ := List.mem_map.mp hmem
    by_cases hdot : d = '.'
    · rw [hdot] at hdc
      rw [if_pos rfl] at hdc
      exact hdc.symm
    · rw [if_neg hdot] at hdc
      obtain ⟨hna, hnh⟩ := h d hd
      rw [← hdc]
      rw [← hdc] at hkeep
      rw [keepChar] at hkeep
      simp only [Bool.or_eq_true, decide_eq_true_eq] at hkeep
      rcases hkeep with (h1 | h2) | h3
      · exact absurd h1 (by simp [hna])
      · exact absurd h2 hnh
      · exact h3
  apply String.ext
  show (normalize s).toList = ("" : String).toList
  rw [normalize_toList, pyStrip_collapseWs_all_space _ hall]
  rfl

/-! ## Lemmas about `mapCleanLabel` -/

/-- On strings matching no table key, `mapCleanLabel` is the `title()`
fallback. -/
theorem mapCleanLabel_of_not_key {s : String} (h : s ∉ tableKeys) :
    mapCleanLabel s = ⟨pyTitle s.toList⟩ := by
  simp only [tableKeys, List.mem_cons, List.not_mem_nil, or_false] at h
  push_neg at h
  obtain ⟨h1, h2, h3, h4, h5, h6, h7⟩ := h
  rw [mapCleanLabel, if_neg (by tauto), if_neg h3, if_neg h4, if_neg h5, if_neg h6,
    if_neg h7]

theorem pyTitle_ne_of_second {x y : Char} {rest : List Char} (l : List Char)
    (hx : x.isAlpha = true) (hy : y.isAlpha = true) (hyl : y.isLower = false) :
    pyTitle l ≠ x :: y :: rest := by
  intro h
  have hlow := pyTitleAux_second_lower l false x y rest h hx hy
  rw [hlow] at hyl
  exact Bool.noConfusion hyl

/-- The `title()` fallback never produces a table key: every key has a
letter in second position that is uppercase after a letter, which `pyTitle`
output cannot contain. -/
theorem pyTitle_not_key (l : List Char) : (⟨pyTitle l⟩ : String) ∉ tableKeys := by
  intro hmem
  simp only [tableKeys, List.mem_cons, List.not_mem_nil, or_false] at hmem
  rcases hmem with h | h | h | h | h | h | h
  · have hl : pyTitle l = 'A' :: 'D' :: "HOC QUERIES".toList :=
      (congrArg String.data h).trans rfl
    exact pyTitle_ne_of_second l (by decide) (by decide) (by decide) hl
  · have hl : pyTitle l = 'A' :: 'D' :: "-HOC QUERIES".toList :=
      (congrArg String.data h).trans rfl
    exact pyTitle_ne_of_second l (by decide) (by decide) (by decide) hl
  · have hl : pyTitle l = 'A' :: 'G' :: "RICULTURAL PRODUCTION".toList :=
      (congrArg String.data h).trans rfl
    exact pyTitle_ne_of_second l (by decide) (by decide) (by decide) hl
  · have hl : pyTitle l = 'A' :: 'I' :: "RLINE COMPANIES".toList :=
      (congrArg String.data h).trans rfl
    exact pyTitle_ne_of_second l (by decide) (by decide) (by decide) hl
  · have hl : pyTitle l = 'A' :: 'I' :: "RLINES".toList :=
      (congrArg String.data h).trans rfl
    exact pyTitle_ne_of_second l (by decide) (by decide) (by decide) hl
  · have hl : pyTitle l = 'A' :: 'N' :: "ALYTIC APPLICATIONS".toList :=
      (congrArg String.data h).trans rfl
    exact pyTitle_ne_of_second l (by decide) (by decide) (by decide) hl
  · have hl : pyTitle l = 'A' :: 'N' :: "ALYTIC MODEL".toList :=
      (congrArg String.data h).trans rfl
    exact pyTitle_ne_of_second l (by decide) (by decide) (by decide) hl

/-- Idempotence of `mapCleanLabel`: table values are keys mapping to
themselves, and the fallback is idempotent and never hits the table. -/
theorem mapCleanLabel_idempotent (s : String) :
    mapCleanLabel (mapCleanLabel s) = mapCleanLabel s := by
  by_cases h : s ∈ tableKeys
  · simp only [tableKeys, List.mem_cons, List.not_mem_nil, or_false] at h
    rcases h with h | h | h | h | h | h | h <;> subst h <;> decide
  · rw [mapCleanLabel_of_not_key h]
    rw [mapCleanLabel_of_not_key (pyTitle_not_key s.toList)]
    apply String.ext
    show pyTitle ((⟨pyTitle s.toList⟩ : String).toList) = pyTitle s.toList
    exact pyTitleAux_idem s.toList false

/-! ## Lemmas about `makeTestKeys` -/

theorem foldl_guard_set_length (n : Nat) :
    ∀ (l : List (Nat × String)) (init : List String),
      (l.foldl (fun keys iv => if iv.1 < n then keys.set iv.1 iv.2 else keys) init).length
        = init.length
  | [], _ => rfl
  | a :: t, init => by
    rw [List.foldl_cons, foldl_guard_set_length n t _]
    split_ifs
    · exact List.length_set init a.1 a.2
    · rfl

theorem makeTestKeys_length (n : Nat) : (makeTestKeys n).length = n := by
  rw [makeTestKeys, foldl_guard_set_length]
  simp

/-- The `0 <= idx < n` guard in the source is redundant for a list of length
`n`: an out-of-bounds `List.set` is already the identity. -/
theorem guard_set_eq {n : Nat} (l : List String) (j : Nat) (v : String)
    (hlen : l.length = n) : (if j < n then l.set j v else l) = l.set j v := by
  split_ifs with hj
  · rfl
  · exact (List.set_eq_of_length_le (by omega)).symm

theorem makeTestKeys_getElem (n i : Nat) (h : i < n) :
    (makeTestKeys n)[i]? = some (
      if i = 0 then "alanapatcacsiciolilynnaonplppsatiyt"
      else if i = 2 then "alanapatcacsiciolilynansonplppssatiyt"
      else if i = 3 then "alancsdeelicllymonaodsmtiyt"
      else if i = 7 then "alancadeeliclmlslymonaodstiyt"
      else if i = 12 then "agalctcudugriclpltodprrariroststuuculur"
      else if i = 17 then "aiesinirlinerls"
      else "key_filler_" ++ toString i) := by
  have hB : ((List.range n).map (fun i => "key_filler_" ++ toString i))[i]?
      = some ("key_filler_" ++ toString i) := by
    rw [List.getElem?_map, List.getElem?_range h]
    rfl
  have hBlen : ((List.range n).map (fun i => "key_filler_" ++ toString i)).length = n := by
    simp
  rw [makeTestKeys]
  simp only [expectedTestKeys, List.foldl_cons, List.foldl_nil]
  rw [guard_set_eq _ 0 _ hBlen]
  rw [guard_set_eq _ 2 _ (by simp)]
  rw [guard_set_eq _ 3 _ (by simp)]
  rw [guard_set_eq _ 7 _ (by simp)]
  rw [guard_set_eq _ 12 _ (by simp)]
  rw [guard_set_eq _ 17 _ (by simp)]
  simp only [List.getElem?_set, List.length_set, hBlen]
  by_cases h0 : i = 0
  · subst h0
    norm_num
    intro hcon
    omega
  by_cases h2 : i = 2
  · subst h2
    norm_num
    intro hcon
    omega
  by_cases h3 : i = 3
  · subst h3
    norm_num
    intro hcon
    omega
  by_cases h7 : i = 7
  · subst h7
    norm_num
    intro hcon
    omega
  by_cases h12 : i = 12
  · subst h12
    norm_num
    intro hcon
    omega
  by_cases h17 : i = 17
  · subst h17
    norm_num
    intro hcon
    omega
  rw [if_neg (by omega), if_neg (by omega), if_neg (by omega), if_neg (by omega),
    if_neg (by omega), if_neg (by omega), hB,
    if_neg h0, if_neg h2, if_neg h3, if_neg h7, if_neg h12, if_neg h17]

/-! ## Lemmas about `mainModel` -/

theorem mainModel_none {fs : String → Option (List String)}
    {input_path : String} (output_path : String) (h : fs input_path = none) :
    mainModel fs input_path output_path = (fs, some (CleanErr.fileNotFound input_path)) := by
  unfold mainModel
  rw [h]

theorem mainModel_some {fs : String → Option (List String)}
    {input_path : String} (output_path : String) {rows : List String}
    (h : fs input_path = some rows) :
    (mainModel fs input_path output_path).2 = none := by
  unfold mainModel
  rw [h]

/-! ## The claims -/

/-- C1: for every input whose normalized token equals one of the fixed table
keys ("ADHOC QUERIES", "AD-HOC QUERIES", "AGRICULTURAL PRODUCTION",
"AIRLINE COMPANIES", "AIRLINES", "ANALYTIC APPLICATIONS", "ANALYTIC MODEL"),
the label mapper returns exactly the fixed string associated with that key
(both ad-hoc spellings yield "AD-HOC QUERIES"), by exact string equality
only: any string that is not literally a key (even one containing a key as a
substring) falls through to the `title()` fallback. -/
theorem map_label_fixed_table :
    mapCleanLabel "ADHOC QUERIES" = "AD-HOC QUERIES" ∧
    mapCleanLabel "AD-HOC QUERIES" = "AD-HOC QUERIES" ∧
    mapCleanLabel "AGRICULTURAL PRODUCTION" = "AGRICULTURAL PRODUCTION" ∧
    mapCleanLabel "AIRLINE COMPANIES" = "AIRLINE COMPANIES" ∧
    mapCleanLabel "AIRLINES" = "AIRLINES" ∧
    mapCleanLabel "ANALYTIC APPLICATIONS" = "ANALYTIC APPLICATIONS" ∧
    mapCleanLabel "ANALYTIC MODEL" = "ANALYTIC MODEL" ∧
    ∀ s : String, s ∉ tableKeys → mapCleanLabel s = ⟨pyTitle s.toList⟩ := by
  refine ⟨by decide, by decide, by decide, by decide, by decide, by decide, by decide, ?_⟩
  intro s hs
  exact mapCleanLabel_of_not_key hs

/-- C1 witness: "AIRLINES TODAY" contains the key "AIRLINES" as a substring
but is not a key, so it gets the fallback, not the fixed string. -/
theorem map_label_fixed_table_witness :
    ("AIRLINES TODAY" : String) ∉ tableKeys ∧
    mapCleanLabel "AIRLINES TODAY" = ⟨pyTitle ("AIRLINES TODAY" : String).toList⟩ :=
  ⟨by decide, map_label_fixed_table.2.2.2.2.2.2.2 "AIRLINES TODAY" (by decide)⟩

/-- C2 counterexample: the claim says the fallback lowercases letters after a
hyphen inside a word, but Python's `title()` capitalizes them.  On the
normalized non-key token "AB-CD" the code produces "Ab-Cd" while the
whitespace-word title casing of the claim produces "Ab-cd". -/
theorem title_fallback_counterexample :
    normalize "AB-CD" = "AB-CD" ∧
    ("AB-CD" : String) ∉ tableKeys ∧
    mapCleanLabel "AB-CD" = "Ab-Cd" ∧
    titleWordsSpec ("AB-CD" : String).toList = ("Ab-cd" : String).toList ∧
    mapCleanLabel "AB-CD" ≠ ⟨titleWordsSpec ("AB-CD" : String).toList⟩ :=
  ⟨by decide, by decide, by decide, by decide, by decide⟩

/-- C2 (amended): for every normalized token matching no fixed table key,
the label mapper returns the Python-`title()` form of the token: a letter is
capitalized exactly when it starts the string or follows a non-letter
character (including hyphens and digits), a letter following a letter is
lowercased, and non-letters are unchanged. -/
theorem map_label_fallback_python_title (tok : String) (h : tok ∉ tableKeys) :
    mapCleanLabel tok = ⟨titlePositional tok.toList⟩ := by
  rw [mapCleanLabel_of_not_key h]
  apply String.ext
  show pyTitle tok.toList = titlePositional tok.toList
  exact pyTitle_eq_titlePositional tok.toList

/-- C2 witness: the amended fallback rule evaluated on the concrete non-key
token "AB-CD". -/
theorem map_label_fallback_python_title_witness :
    ("AB-CD" : String) ∉ tableKeys ∧
    mapCleanLabel "AB-CD" = ⟨titlePositional ("AB-CD" : String).toList⟩ :=
  ⟨by decide, map_label_fallback_python_title "AB-CD" (by decide)⟩

/-- C3 counterexample: the claim says the label produced for
"Ad Hoc Queries" is "AD-HOC QUERIES", but the normalized token
"AD HOC QUERIES" matches no table key (the keys are "ADHOC QUERIES" and
"AD-HOC QUERIES"), so the mapper returns the title-cased fallback instead. -/
theorem adhoc_scenario_counterexample :
    mapCleanLabel (normalize "Ad Hoc Queries") ≠ "AD-HOC QUERIES" := by decide

/-- C3 (amended): "Ad Hoc Queries" normalizes to "AD HOC QUERIES", and the
label produced for it by the mapper is the fallback "Ad Hoc Queries". -/
theorem adhoc_scenario_actual :
    normalize "Ad Hoc Queries" = "AD HOC QUERIES" ∧
    mapCleanLabel (normalize "Ad Hoc Queries") = "Ad Hoc Queries" :=
  ⟨by decide, by decide⟩

/-- C4: the output of the normalizer contains only ASCII letters, digits,
hyphens and spaces, contains no lowercase letter, is single-spaced (no two
adjacent spaces), and is trimmed (neither starts nor ends with
whitespace). -/
theorem normalize_output_shape (s : String) :
    ((normalize s).toList.all (fun c => c.isAlphanum || c = '-' || c = ' ')) = true ∧
    ((normalize s).toList.all (fun c => !c.isLower)) = true ∧
    noDoubleSpace (normalize s).toList = true ∧
    trimmed (normalize s).toList = true := by
  refine ⟨?_, ?_, normalize_noDoubleSpace s, normalize_trimmed s⟩
  · rw [List.all_eq_true]
    intro c hc
    exact normalize_class hc
  · rw [List.all_eq_true]
    intro c hc
    simp [normalize_not_lower hc]

/-- C5: normalization is idempotent: normalizing the result of normalizing
any string returns it unchanged. -/
theorem normalize_idempotent (s : String) : normalize (normalize s) = normalize s :=
  normalize_normalize s

/-- C6: the cleaned-label output has exactly one entry per input record, in
input order, and each entry is the label mapper applied to the normalizer
applied to that record. -/
theorem cleaned_column_rowwise (raw_texts : List String) :
    (cleanedColumn raw_texts).length = raw_texts.length ∧
    ∀ i : Nat, (cleanedColumn raw_texts)[i]? =
      (raw_texts[i]?).map (fun s => mapCleanLabel (normalize s)) := by
  refine ⟨by simp [cleanedColumn], ?_⟩
  intro i
  rw [cleanedColumn, List.getElem?_map]

/-- C7: if the input path does not exist, `main` fails fast with the
file-not-found error and writes nothing (the filesystem is returned
unchanged); whenever the input path exists no error is raised, so
file-not-found is the only error kind. -/
theorem main_missing_input (fs : String → Option (List String))
    (input_path output_path : String) (h : fs input_path = none) :
    (mainModel fs input_path output_path).1 = fs ∧
    (mainModel fs input_path output_path).2 = some (CleanErr.fileNotFound input_path) ∧
    ∀ (fs2 : String → Option (List String)) (rows : List String),
      fs2 input_path = some rows →
      (mainModel fs2 input_path output_path).2 = none := by
  refine ⟨?_, ?_, ?_⟩
  · rw [mainModel_none output_path h]
  · rw [mainModel_none output_path h]
  · intro fs2 rows h2
    exact mainModel_some output_path h2

/-- C7 witness: on the empty filesystem, `main` reports file-not-found for
the input path and leaves the filesystem unchanged. -/
theorem main_missing_input_witness :
    (mainModel (fun _ => none) "files/input.txt" "files/output.txt").2
      = some (CleanErr.fileNotFound "files/input.txt") ∧
    (mainModel (fun _ => (none : Option (List String))) "files/input.txt"
      "files/output.txt").1 = (fun _ => none) :=
  ⟨(main_missing_input (fun _ => none) "files/input.txt" "files/output.txt" rfl).2.1,
   (main_missing_input (fun _ => none) "files/input.txt" "files/output.txt" rfl).1⟩

/-- C8: for every count n, the key-filler returns exactly n strings; each of
the fixed indices 0, 2, 3, 7, 12, 17 that lies in range holds its specific
literal string, every other index i holds "key_filler_i", and out-of-range
fixed indices are skipped without error. -/
theorem make_test_keys_spec (n : Nat) :
    (makeTestKeys n).length = n ∧
    ∀ i : Nat, i < n → (makeTestKeys n)[i]? = some (
      if i = 0 then "alanapatcacsiciolilynnaonplppsatiyt"
      else if i = 2 then "alanapatcacsiciolilynansonplppssatiyt"
      else if i = 3 then "alancsdeelicllymonaodsmtiyt"
      else if i = 7 then "alancadeeliclmlslymonaodstiyt"
      else if i = 12 then "agalctcudugriclpltodprrariroststuuculur"
      else if i = 17 then "aiesinirlinerls"
      else "key_filler_" ++ toString i) :=
  ⟨makeTestKeys_length n, fun i h => makeTestKeys_getElem n i h⟩

/-- C8 witness: a request shorter than 18 rows (n = 5) does not error, has
length 5, and holds the fixed literal at index 3. -/
theorem make_test_keys_spec_witness :
    (makeTestKeys 5).length = 5 ∧
    (makeTestKeys 5)[3]? = some "alancsdeelicllymonaodsmtiyt" := by
  refine ⟨(make_test_keys_spec 5).1, ?_⟩
  have h := (make_test_keys_spec 5).2 3 (by decide)
  simpa using h

/-- C9: the label mapper is idempotent: each fixed table value is itself a
key mapping to itself, and the `title()` fallback is idempotent and never
produces a table key. -/
theorem map_label_idempotent (s : String) :
    mapCleanLabel (mapCleanLabel s) = mapCleanLabel s :=
  mapCleanLabel_idempotent s

/-- C10: a string consisting only of characters removed by normalization (no
ASCII letter, digit or hyphen: e.g. whitespace, periods, other punctuation,
non-ASCII characters, or the empty string) normalizes to the empty string,
and the label mapper sends the empty string to the empty string. -/
theorem removed_only_input_empty_label (s : String)
    (h : ∀ c ∈ s.toList, c.isAlphanum = false ∧ c ≠ '-') :
    normalize s = "" ∧ mapCleanLabel "" = "" ∧ mapCleanLabel (normalize s) = "" := by
  have h1 := normalize_all_removed h
  refine ⟨h1, by decide, ?_⟩
  rw [h1]
  decide

/-- C10 witness: a concrete record of whitespace, punctuation and non-ASCII
characters contributes an empty label. -/
theorem removed_only_input_empty_label_witness :
    (∀ c ∈ (" .,!?¡é " : String).toList, c.isAlphanum = false ∧ c ≠ '-') ∧
    normalize " .,!?¡é " = "" ∧ mapCleanLabel (normalize " .,!?¡é ") = "" :=
  ⟨by decide,
   (removed_only_input_empty_label " .,!?¡é " (by decide)).1,
   (removed_only_input_empty_label " .,!?¡é " (by decide)).2.2⟩

end CleanData
